import Mathlib

/-!
Shallow embedding of `geo-types/src/line_string.rs`: the `LineString`
value type (an ordered path of 2D coordinates) and its derived views
(segment view `lines`, triangle view `triangles`, point view), the
closure operator `close` / predicate `is_closed`, the construction
surface, and the spatial-index capabilities (`envelope`, `distance_2`).

The generic scalar `T : CoordinateType` of the source is embedded as a
type `α` in a linear ordered field (exact arithmetic); concrete
witnesses instantiate `α := ℚ`. Rust `Vec<Coordinate<T>>` becomes
`List (Coordinate α)`. The fallible array indexing `self.0[0]` inside
`close` is embedded with `Option` (`none` models the out-of-range
panic), so totality of `close` is a provable statement.
-/

set_option autoImplicit false
set_option linter.unusedVariables false
set_option linter.unusedSectionVars false

/-- `Coordinate<T>`: a pair of scalars, structural equality. -/
structure Coordinate (α : Type) where
  x : α
  y : α
deriving DecidableEq, Repr

/-- `Point<T>`: a tuple struct wrapping one `Coordinate` (field `.0`). -/
structure Point (α : Type) where
  coord : Coordinate α
deriving DecidableEq, Repr

/-- `Line<T>`: `Line::new(start, end)` stores an ordered pair of
coordinates; `end` is a Lean keyword, so the second field is `end_`. -/
structure Line (α : Type) where
  start : Coordinate α
  end_ : Coordinate α
deriving DecidableEq, Repr

/-- `Triangle<T>`: a tuple struct of three coordinates (`.0`, `.1`, `.2`). -/
structure Triangle (α : Type) where
  v0 : Coordinate α
  v1 : Coordinate α
  v2 : Coordinate α
deriving DecidableEq, Repr

/-- `LineString<T>(pub Vec<Coordinate<T>>)`: the coordinate sequence store. -/
structure LineString (α : Type) where
  coords : List (Coordinate α)
deriving DecidableEq, Repr

namespace LineString

variable {α : Type} [LinearOrderedField α]

/-- `LineString::num_coords`: `self.0.len()`. -/
def num_coords (ls : LineString α) : Nat :=
  ls.coords.length

/-- `LineString::lines`: `self.0.windows(2).map(|w| Line::new(w[0], w[1]))`.
The windows of width 2 of a list are exactly the pairs of the list zipped
with its own tail. -/
def lines (ls : LineString α) : List (Line α) :=
  (ls.coords.zip ls.coords.tail).map fun w => Line.mk w.1 w.2

/-- `LineString::triangles`:
`self.0.windows(3).map(|w| Triangle(w[0], w[1], w[2]))`; the windows of
width 3 are the triples obtained by zipping the list with its tail and
its tail's tail. -/
def triangles (ls : LineString α) : List (Triangle α) :=
  (ls.coords.zip (ls.coords.tail.zip ls.coords.tail.tail)).map
    fun w => Triangle.mk w.1 w.2.1 w.2.2

/-- `LineString::is_closed`: `self.0.first() == self.0.last()`
(equality of the two `Option<&Coordinate<T>>` values). -/
def is_closed (ls : LineString α) : Bool :=
  decide (ls.coords.head? = ls.coords.getLast?)

/-- `LineString::close`:
`if !self.is_closed() { self.0.push(self.0[0]); }`.
The indexing `self.0[0]` is fallible (out-of-range terminates the
process), so it is embedded as `List.getElem?` under `Option`: a
`none` result models the fatal out-of-range access. -/
def close (ls : LineString α) : Option (LineString α) :=
  if ls.is_closed then some ls
  else (ls.coords[0]?).map fun c0 => LineString.mk (ls.coords ++ [c0])

/-- `From<Vec<IC>> for LineString`:
`LineString(v.into_iter().map(|c| c.into()).collect())`; the conversion
`IC: Into<Coordinate<T>>` is a function `f : β → Coordinate α`. -/
def from_vec {β : Type} (f : β → Coordinate α) (v : List β) : LineString α :=
  LineString.mk (v.map f)

/-- `FromIterator<IC> for LineString`:
`LineString(iter.into_iter().map(|c| c.into()).collect())`. -/
def from_iter {β : Type} (f : β → Coordinate α) (v : List β) : LineString α :=
  LineString.mk (v.map f)

/-- `IntoIterator for LineString`: `self.0.into_iter()` — consuming the
path yields its coordinates in store order. -/
def into_iter_coords (ls : LineString α) : List (Coordinate α) :=
  ls.coords

/-- `LineString::into_points`: `self.0.into_iter().map(Point).collect()`. -/
def into_points (ls : LineString α) : List (Point α) :=
  ls.coords.map Point.mk

end LineString

/-- `PointsIter<'a, T>(slice::Iter<'a, Coordinate<T>>)`: the state of the
point-view iterator, the coordinates not yet yielded. -/
structure PointsIter (α : Type) where
  remaining : List (Coordinate α)

namespace PointsIter

variable {α : Type} [LinearOrderedField α]

/-- `Iterator::next for PointsIter`: `self.0.next().map(|c| Point(*c))`. -/
def next : PointsIter α → Option (Point α × PointsIter α)
  | ⟨[]⟩ => none
  | ⟨c :: rest⟩ => some (Point.mk c, ⟨rest⟩)

/-- `DoubleEndedIterator::next_back for PointsIter`:
`self.0.next_back().map(|c| Point(*c))`. -/
def next_back (it : PointsIter α) : Option (Point α × PointsIter α) :=
  it.remaining.getLast?.map fun c => (Point.mk c, ⟨it.remaining.dropLast⟩)

/-- Exhaust the iterator by repeated `next`: the forward traversal. -/
def collect_forward : PointsIter α → List (Point α)
  | ⟨[]⟩ => []
  | ⟨c :: rest⟩ => Point.mk c :: collect_forward ⟨rest⟩

/-- Exhaust the iterator by repeated `next_back`: the backward traversal. -/
def collect_backward (it : PointsIter α) : List (Point α) :=
  match h : it.next_back with
  | none => []
  | some (p, it2) => p :: collect_backward it2
termination_by it.remaining.length
decreasing_by
  simp only [next_back, Option.map_eq_some'] at h
  obtain ⟨c, hc, h2⟩ := h
  cases h2
  have hne : it.remaining ≠ [] := by
    intro he
    rw [he] at hc
    simp [List.getLast?] at hc
  simp only
  rw [List.length_dropLast]
  have : 0 < it.remaining.length := List.length_pos.mpr hne
  omega

end PointsIter

/-- `LineString::points_iter`: `PointsIter(self.0.iter())`. -/
def LineString.points_iter {α : Type} [LinearOrderedField α]
    (ls : LineString α) : PointsIter α :=
  PointsIter.mk ls.coords

section SpatialIndex

variable {α : Type} [LinearOrderedField α]

/-- Squared Euclidean distance between two coordinates. -/
def sq_dist (p q : Coordinate α) : α :=
  (p.x - q.x) ^ 2 + (p.y - q.y) ^ 2

/-- The point of the segment from `a` to `b` at parameter `t`. -/
def seg_point (a b : Coordinate α) (t : α) : Coordinate α :=
  Coordinate.mk (a.x + t * (b.x - a.x)) (a.y + t * (b.y - a.y))

/-- Modelled from the spec: the per-segment step of
`private_utils::point_line_string_euclidean_distance` (the helper is not
part of this file's source) — "the standard point-to-segment
minimum-distance computation (projected-parameter clamped to [0,1], else
nearest endpoint)" (spec 4.7). Carried in squared form: for a degenerate
segment the squared distance to the (unique) endpoint, otherwise the
squared distance to the segment point at the clamped projection
parameter. -/
def line_segment_sq_distance (p a b : Coordinate α) : α :=
  let dx := b.x - a.x
  let dy := b.y - a.y
  let len2 := dx ^ 2 + dy ^ 2
  if len2 = 0 then sq_dist p a
  else
    let t := ((p.x - a.x) * dx + (p.y - a.y) * dy) / len2
    sq_dist p (seg_point a b (max 0 (min 1 t)))

/-- Modelled from the spec: the path level of
`private_utils::point_line_string_euclidean_distance` (not part of this
file's source) — "the Path-level result is the minimum over all
segments" (spec 4.7), in squared form (squaring is monotone on the
nonnegative per-segment distances, so it commutes with the minimum).
`none` models the no-segment case, which the spec leaves unspecified. -/
def point_line_string_min_sq_distance (p : Coordinate α) (ls : LineString α) :
    Option α :=
  (ls.lines.map fun seg => line_segment_sq_distance p seg.start seg.end_).min?

/-- `PointDistance::distance_2 for LineString`:
`let d = point_line_string_euclidean_distance(*point, self);
 if d == T::zero() { d } else { d.powi(2) }`.
With `m = d^2` the squared form of the helper's result, the source's
test `d == 0` is `m = 0`, the zero branch returns `d = 0` unsquared, and
the other branch returns `d.powi(2) = m`. -/
def LineString.distance_2 (ls : LineString α) (point : Point α) : Option α :=
  (point_line_string_min_sq_distance point.coord ls).map
    fun m => if m = 0 then 0 else m

/-- The bounding rectangle returned by the helper: corners `b.min()` /
`b.max()` in the source, here fields `lo` / `hi`. -/
structure Rect (α : Type) where
  lo : Coordinate α
  hi : Coordinate α
deriving DecidableEq, Repr

/-- Modelled from the spec: `private_utils::line_string_bounding_rect`
(not part of this file's source) — "minimum corner = (min x, min y) over
all coordinates, maximum corner = (max x, max y)" (spec 4.6), with no
rectangle (`None`) for an empty path. -/
def line_string_bounding_rect (ls : LineString α) : Option (Rect α) :=
  match ls.coords with
  | [] => none
  | c :: rest =>
    some (rest.foldl
      (fun r c2 => Rect.mk
        (Coordinate.mk (min r.lo.x c2.x) (min r.lo.y c2.y))
        (Coordinate.mk (max r.hi.x c2.x) (max r.hi.y c2.y)))
      (Rect.mk c c))

/-- `rstar::AABB<Point<T>>` (external dependency): an axis-aligned box
with a lower and an upper corner. -/
structure AABB (α : Type) where
  lower : Point α
  upper : Point α
deriving DecidableEq, Repr

/-- `rstar::AABB::from_corners` (external dependency): builds the box
from two arbitrary corners, normalizing by componentwise min/max. -/
def AABB.from_corners (p q : Point α) : AABB α :=
  AABB.mk
    (Point.mk (Coordinate.mk (min p.coord.x q.coord.x) (min p.coord.y q.coord.y)))
    (Point.mk (Coordinate.mk (max p.coord.x q.coord.x) (max p.coord.y q.coord.y)))

/-- `RTreeObject::envelope for LineString`: matches on the helper's
bounding rectangle; for `None` the corners are
`Bounded::min_value()/max_value()` of the scalar. The Rust scalar
(`Float + RTreeNum`) is bounded; the embedding scalar is not, so those
two bounds are parameters `minVal` / `maxVal`. -/
def LineString.envelope (minVal maxVal : α) (ls : LineString α) : AABB α :=
  match line_string_bounding_rect ls with
  | none =>
    AABB.from_corners
      (Point.mk (Coordinate.mk minVal minVal))
      (Point.mk (Coordinate.mk maxVal maxVal))
  | some b =>
    AABB.from_corners
      (Point.mk (Coordinate.mk b.lo.x b.lo.y))
      (Point.mk (Coordinate.mk b.hi.x b.hi.y))

/-- The specification-side geometric notion used to state the distance
claim: `q` lies on the segment from `a` to `b` (it is a convex
combination of the endpoints). -/
def on_segment (q a b : Coordinate α) : Prop :=
  ∃ t, 0 ≤ t ∧ t ≤ 1 ∧ q = seg_point a b t

/-- `q` lies on the union of the path's segments. -/
def on_path (q : Coordinate α) (ls : LineString α) : Prop :=
  ∃ seg ∈ ls.lines, on_segment q seg.start seg.end_

end SpatialIndex

/-- Concrete path of the spec's scenario 1: [(0,0), (5,0), (7,9)]. -/
def wpath3 : LineString ℚ :=
  LineString.mk [Coordinate.mk 0 0, Coordinate.mk 5 0, Coordinate.mk 7 9]

/-- Concrete path of the spec's scenario 5: [(0,0), (10,0)]. -/
def wpath2 : LineString ℚ :=
  LineString.mk [Coordinate.mk 0 0, Coordinate.mk 10 0]

/-- Concrete closed path of the spec's scenario 3: [(0,0), (5,0), (0,0)]. -/
def wclosed : LineString ℚ :=
  LineString.mk [Coordinate.mk 0 0, Coordinate.mk 5 0, Coordinate.mk 0 0]

/-- Concrete query point of the spec's scenario 5: (5,5). -/
def wquery : Point ℚ :=
  Point.mk (Coordinate.mk 5 5)

/-! ### Helper lemmas -/

section Helpers

variable {α : Type} [LinearOrderedField α]

theorem collect_forward_eq (l : List (Coordinate α)) :
    PointsIter.collect_forward (PointsIter.mk l) = l.map Point.mk := by
  induction l with
  | nil => simp [PointsIter.collect_forward]
  | cons c rest ih => simp [PointsIter.collect_forward, ih]

theorem collect_backward_eq (l : List (Coordinate α)) :
    PointsIter.collect_backward (PointsIter.mk l) = (l.map Point.mk).reverse := by
  induction l using List.reverseRecOn with
  | nil =>
    rw [PointsIter.collect_backward]
    rfl
  | append_singleton init last ih =>
    have hnb : PointsIter.next_back (PointsIter.mk (init ++ [last]))
        = some (Point.mk last, PointsIter.mk init) := by
      simp [PointsIter.next_back, List.getLast?_concat]
    rw [PointsIter.collect_backward]
    split
    · rename_i heq
      rw [hnb] at heq
      exact absurd heq (by simp)
    · rename_i p it2 heq
      rw [hnb] at heq
      obtain ⟨hp, hit⟩ := Prod.mk.injEq .. ▸ Option.some.inj heq
      subst hp
      subst hit
      simp [ih]

theorem close_coords (ls : LineString α) (h : ls.is_closed = false) :
    ∃ c0 rest, ls.coords = c0 :: rest
      ∧ ls.close = some (LineString.mk ((c0 :: rest) ++ [c0])) := by
  obtain ⟨c0, rest, hc⟩ : ∃ c0 rest, ls.coords = c0 :: rest := by
    cases hl : ls.coords with
    | nil =>
      exfalso
      have : ls.is_closed = true := by simp [LineString.is_closed, hl]
      simp [this] at h
    | cons c0 rest => exact ⟨c0, rest, rfl⟩
  refine ⟨c0, rest, hc, ?_⟩
  simp [LineString.close, h, hc]

theorem is_closed_append_head (c0 : Coordinate α) (rest : List (Coordinate α)) :
    (LineString.mk (c0 :: (rest ++ [c0]))).is_closed = true := by
  have h : (c0 :: (rest ++ [c0])).getLast? = some c0 := by
    rw [← List.cons_append]
    exact List.getLast?_concat _
  simp [LineString.is_closed, h]

end Helpers

/-! ### Claim theorems -/

section Claims

variable {α : Type} [LinearOrderedField α]

/-- C1: for every path of length n ≥ 2, `lines` yields exactly n − 1
segments and the k-th segment is the ordered pair
(coordinate k, coordinate k+1) for every k ∈ [0, n−2]; for every path
of length < 2, `lines` yields zero segments. -/
theorem C1_lines_segments (ls : LineString α) :
    ls.lines.length = ls.num_coords - 1
    ∧ (∀ k a b, ls.coords[k]? = some a → ls.coords[k + 1]? = some b →
        ls.lines[k]? = some (Line.mk a b))
    ∧ (ls.num_coords < 2 → ls.lines = []) := by
  refine ⟨?_, ?_, ?_⟩
  · simp only [LineString.lines, LineString.num_coords, List.length_map,
      List.length_zip, List.length_tail]
    omega
  · intro k a b ha hb
    simp only [LineString.lines, List.getElem?_map]
    have : (ls.coords.zip ls.coords.tail)[k]? = some (a, b) := by
      rw [List.getElem?_zip_eq_some]
      exact ⟨ha, by simpa using hb⟩
    rw [this]
    rfl
  · intro h
    simp only [LineString.num_coords] at h
    match hl : ls.coords, h with
    | [], _ => simp [LineString.lines, hl]
    | [c], _ => simp [LineString.lines, hl]

/-- C5: for every path of length n ≥ 3, `triangles` yields exactly n − 2
triangles and the k-th triangle is the ordered triple
(coordinate k, coordinate k+1, coordinate k+2) for every k ∈ [0, n−3];
for every path of length < 3, `triangles` yields zero triangles. -/
theorem C5_triangles (ls : LineString α) :
    ls.triangles.length = ls.num_coords - 2
    ∧ (∀ k a b c, ls.coords[k]? = some a → ls.coords[k + 1]? = some b →
        ls.coords[k + 2]? = some c →
        ls.triangles[k]? = some (Triangle.mk a b c))
    ∧ (ls.num_coords < 3 → ls.triangles = []) := by
  refine ⟨?_, ?_, ?_⟩
  · simp only [LineString.triangles, LineString.num_coords, List.length_map,
      List.length_zip, List.length_tail]
    omega
  · intro k a b c ha hb hc
    simp only [LineString.triangles, List.getElem?_map]
    have : (ls.coords.zip (ls.coords.tail.zip ls.coords.tail.tail))[k]?
        = some (a, (b, c)) := by
      rw [List.getElem?_zip_eq_some]
      refine ⟨ha, ?_⟩
      rw [List.getElem?_zip_eq_some]
      constructor
      · simpa using hb
      · simpa [Nat.add_assoc] using hc
    rw [this]
    rfl
  · intro h
    simp only [LineString.num_coords] at h
    match hl : ls.coords, h with
    | [], _ => simp [LineString.triangles, hl]
    | [c], _ => simp [LineString.triangles, hl]
    | [c, d], _ => simp [LineString.triangles, hl]

/-- C4: for every path, `is_closed` returns true iff the path is empty
or its first coordinate equals its last coordinate. -/
theorem C4_is_closed_iff (ls : LineString α) :
    ls.is_closed = true ↔
      ls.coords = [] ∨
        ∃ h : ls.coords ≠ [], ls.coords.head h = ls.coords.getLast h := by
  simp only [LineString.is_closed, decide_eq_true_eq]
  cases hl : ls.coords with
  | nil => simp
  | cons c0 rest =>
    have hne : c0 :: rest ≠ [] := List.cons_ne_nil c0 rest
    rw [List.head?_eq_head hne, List.getLast?_eq_getLast _ hne]
    simp only [Option.some.injEq, List.cons_ne_nil, false_or]
    constructor
    · intro h
      exact ⟨hne, h⟩
    · rintro ⟨_, h⟩
      exact h


/-- C2: `close` is a no-op on an already-closed path (including the
empty path); otherwise it appends a copy of the first coordinate, so the
result is the original sequence followed by the coordinate at position
0; in all cases the coordinate at position 0 is unchanged, the length
grows by at most one, and the original sequence is a prefix of the
result (nothing is removed or reordered). -/
theorem C2_close_spec (ls : LineString α) :
    (ls.is_closed = true → ls.close = some ls)
    ∧ (ls.is_closed = false →
        ∃ c0 rest, ls.coords = c0 :: rest
          ∧ ls.close = some (LineString.mk ((c0 :: rest) ++ [c0])))
    ∧ ∀ ls2, ls.close = some ls2 →
        ls2.coords.head? = ls.coords.head?
        ∧ ls.coords <+: ls2.coords
        ∧ ls2.coords.length ≤ ls.coords.length + 1 := by
  refine ⟨fun h => by simp [LineString.close, h], close_coords ls, ?_⟩
  intro ls2 h2
  cases hcl : ls.is_closed with
  | true =>
    simp only [LineString.close, hcl, if_true, Option.some.injEq] at h2
    subst h2
    exact ⟨rfl, List.prefix_rfl, by omega⟩
  | false =>
    obtain ⟨c0, rest, hc, hcls⟩ := close_coords ls hcl
    rw [hcls] at h2
    obtain rfl := Option.some.inj h2
    refine ⟨?_, ?_, ?_⟩
    · simp [hc]
    · rw [hc]
      exact ⟨[c0], rfl⟩
    · simp [hc]

/-- C3: `close` is idempotent — applying it twice yields the same
coordinate sequence as applying it once. -/
theorem C3_close_idempotent (ls : LineString α) :
    ls.close.bind LineString.close = ls.close := by
  cases hcl : ls.is_closed with
  | true =>
    have h1 : ls.close = some ls := by simp [LineString.close, hcl]
    rw [h1, Option.some_bind, h1]
  | false =>
    obtain ⟨c0, rest, hc, hcls⟩ := close_coords ls hcl
    rw [hcls, Option.some_bind]
    simp [LineString.close, is_closed_append_head c0 rest]

/-- C10: a path of length exactly 1 is reported closed and `close`
leaves it unchanged; moreover the index-0 access inside `close` never
goes out of range — `close` is total (`isSome`) on every path. -/
theorem C10_close_total (ls : LineString α) (c : Coordinate α) :
    (LineString.mk [c]).is_closed = true
    ∧ (LineString.mk [c]).close = some (LineString.mk [c])
    ∧ ls.close.isSome = true := by
  have h1 : (LineString.mk [c]).is_closed = true := by
    simp [LineString.is_closed]
  refine ⟨h1, by simp [LineString.close, h1], ?_⟩
  cases hcl : ls.is_closed with
  | true => simp [LineString.close, hcl]
  | false =>
    obtain ⟨c0, rest, hc, hcls⟩ := close_coords ls hcl
    rw [hcls]
    rfl

/-- C8: building a path from a sequence of coordinate-convertible
values and reading the coordinates back in order reproduces exactly the
converted values, and the three construction routes (direct
construction, bulk conversion, iterator collection) produce structurally
identical paths for the same logical input. -/
theorem C8_construction_round_trip {β : Type} (f : β → Coordinate α)
    (v : List β) (w : List (Coordinate α)) :
    (LineString.from_vec f v).into_iter_coords = v.map f
    ∧ LineString.from_vec f v = LineString.from_iter f v
    ∧ LineString.from_vec f v = LineString.mk (v.map f)
    ∧ (LineString.from_vec id w).into_iter_coords = w
    ∧ (LineString.from_iter id w).into_iter_coords = w
    ∧ (LineString.mk w).into_iter_coords = w := by
  refine ⟨rfl, rfl, rfl, ?_, ?_, rfl⟩
  · simp [LineString.from_vec, LineString.into_iter_coords]
  · simp [LineString.from_iter, LineString.into_iter_coords]

/-- C9: for a path of length n the point view yields exactly n
point-wrappers, the k-th wrapping coordinate k in store order; backward
traversal yields the same points in reverse store order; and
`into_points` coincides with collecting the forward point view. -/
theorem C9_point_view (ls : LineString α) :
    PointsIter.collect_forward ls.points_iter = ls.coords.map Point.mk
    ∧ (PointsIter.collect_forward ls.points_iter).length = ls.num_coords
    ∧ (∀ (k : Nat) (c : Coordinate α), ls.coords[k]? = some c →
        (PointsIter.collect_forward ls.points_iter)[k]? = some (Point.mk c))
    ∧ PointsIter.collect_backward ls.points_iter
        = (PointsIter.collect_forward ls.points_iter).reverse
    ∧ ls.into_points = PointsIter.collect_forward ls.points_iter := by
  have hf : PointsIter.collect_forward ls.points_iter = ls.coords.map Point.mk :=
    collect_forward_eq ls.coords
  refine ⟨hf, ?_, ?_, ?_, ?_⟩
  · rw [hf]
    simp [LineString.num_coords]
  · intro k c hk
    simp only [hf, List.getElem?_map, hk, Option.map_some']
  · rw [hf, collect_backward_eq]
    rfl
  · rw [hf]
    rfl


theorem foldl_min_le_init (a : α) (l : List α) : l.foldl min a ≤ a := by
  induction l generalizing a with
  | nil => exact le_refl a
  | cons b t ih => exact le_trans (ih (min a b)) (min_le_left a b)

theorem foldl_min_le_mem (a : α) {b : α} {l : List α} (hb : b ∈ l) :
    l.foldl min a ≤ b := by
  induction l generalizing a with
  | nil => cases hb
  | cons c t ih =>
    rcases List.mem_cons.mp hb with rfl | hb2
    · exact le_trans (foldl_min_le_init (min a b) t) (min_le_right a b)
    · exact ih (min a c) hb2

theorem foldl_min_eq_init_or_mem (a : α) (l : List α) :
    l.foldl min a = a ∨ l.foldl min a ∈ l := by
  induction l generalizing a with
  | nil => exact Or.inl rfl
  | cons c t ih =>
    rcases ih (min a c) with h | h
    · rcases min_choice a c with hm | hm
      · exact Or.inl (by rw [List.foldl_cons, h, hm])
      · exact Or.inr (by rw [List.foldl_cons, h, hm]; exact List.mem_cons_self c t)
    · exact Or.inr (List.mem_cons_of_mem c h)

theorem le_foldl_max_init (a : α) (l : List α) : a ≤ l.foldl max a := by
  induction l generalizing a with
  | nil => exact le_refl a
  | cons b t ih => exact le_trans (le_max_left a b) (ih (max a b))

theorem mem_le_foldl_max (a : α) {b : α} {l : List α} (hb : b ∈ l) :
    b ≤ l.foldl max a := by
  induction l generalizing a with
  | nil => cases hb
  | cons c t ih =>
    rcases List.mem_cons.mp hb with rfl | hb2
    · exact le_trans (le_max_right a b) (le_foldl_max_init (max a b) t)
    · exact ih (max a c) hb2

theorem foldl_max_eq_init_or_mem (a : α) (l : List α) :
    l.foldl max a = a ∨ l.foldl max a ∈ l := by
  induction l generalizing a with
  | nil => exact Or.inl rfl
  | cons c t ih =>
    rcases ih (max a c) with h | h
    · rcases max_choice a c with hm | hm
      · exact Or.inl (by rw [List.foldl_cons, h, hm])
      · exact Or.inr (by rw [List.foldl_cons, h, hm]; exact List.mem_cons_self c t)
    · exact Or.inr (List.mem_cons_of_mem c h)

/-- Componentwise decomposition of the bounding-rectangle fold. -/
theorem bounding_rect_fold_components (l : List (Coordinate α)) (acc : Rect α) :
    (l.foldl
      (fun r c2 => Rect.mk
        (Coordinate.mk (min r.lo.x c2.x) (min r.lo.y c2.y))
        (Coordinate.mk (max r.hi.x c2.x) (max r.hi.y c2.y)))
      acc)
    = Rect.mk
        (Coordinate.mk ((l.map Coordinate.x).foldl min acc.lo.x)
          ((l.map Coordinate.y).foldl min acc.lo.y))
        (Coordinate.mk ((l.map Coordinate.x).foldl max acc.hi.x)
          ((l.map Coordinate.y).foldl max acc.hi.y)) := by
  induction l generalizing acc with
  | nil => rfl
  | cons c t ih => simp [ih]


/-- C7: for every non-empty path the envelope is the minimal
axis-aligned rectangle containing all of the path's coordinates — its
lower corner is (min x, min y) and its upper corner is (max x, max y),
so it contains every coordinate and each corner component is attained by
some coordinate; for the empty path the envelope has its corners at the
scalar type's minimum and maximum values. -/
theorem C7_envelope (minVal maxVal : α) (ls : LineString α)
    (hmv : minVal ≤ maxVal) :
    (ls.coords = [] →
      LineString.envelope minVal maxVal ls
        = AABB.mk (Point.mk (Coordinate.mk minVal minVal))
            (Point.mk (Coordinate.mk maxVal maxVal)))
    ∧ (ls.coords ≠ [] →
      ∃ lo hi : Coordinate α,
        LineString.envelope minVal maxVal ls
          = AABB.mk (Point.mk lo) (Point.mk hi)
        ∧ (∀ c ∈ ls.coords, lo.x ≤ c.x ∧ lo.y ≤ c.y ∧ c.x ≤ hi.x ∧ c.y ≤ hi.y)
        ∧ (∃ c ∈ ls.coords, lo.x = c.x)
        ∧ (∃ c ∈ ls.coords, lo.y = c.y)
        ∧ (∃ c ∈ ls.coords, hi.x = c.x)
        ∧ (∃ c ∈ ls.coords, hi.y = c.y)) := by
  constructor
  · intro h
    simp [LineString.envelope, line_string_bounding_rect, h,
      AABB.from_corners, min_eq_left hmv, max_eq_right hmv]
  · intro hne
    obtain ⟨c0, rest, hc⟩ := List.exists_cons_of_ne_nil hne
    have hrect : line_string_bounding_rect ls = some (Rect.mk
        (Coordinate.mk ((rest.map Coordinate.x).foldl min c0.x)
          ((rest.map Coordinate.y).foldl min c0.y))
        (Coordinate.mk ((rest.map Coordinate.x).foldl max c0.x)
          ((rest.map Coordinate.y).foldl max c0.y))) := by
      simp only [line_string_bounding_rect, hc]
      rw [bounding_rect_fold_components]
    set lox := (rest.map Coordinate.x).foldl min c0.x with hlox
    set loy := (rest.map Coordinate.y).foldl min c0.y with hloy
    set hix := (rest.map Coordinate.x).foldl max c0.x with hhix
    set hiy := (rest.map Coordinate.y).foldl max c0.y with hhiy
    have h1 : lox ≤ hix :=
      le_trans (foldl_min_le_init c0.x (rest.map Coordinate.x))
        (le_foldl_max_init c0.x (rest.map Coordinate.x))
    have h2 : loy ≤ hiy :=
      le_trans (foldl_min_le_init c0.y (rest.map Coordinate.y))
        (le_foldl_max_init c0.y (rest.map Coordinate.y))
    refine ⟨Coordinate.mk lox loy, Coordinate.mk hix hiy, ?_, ?_, ?_, ?_, ?_, ?_⟩
    · simp [LineString.envelope, hrect, AABB.from_corners,
        min_eq_left h1, min_eq_left h2, max_eq_right h1, max_eq_right h2]
    · intro c hcmem
      rcases List.mem_cons.mp (hc ▸ hcmem) with rfl | hmem
      · exact ⟨foldl_min_le_init _ _, foldl_min_le_init _ _,
          le_foldl_max_init _ _, le_foldl_max_init _ _⟩
      · exact ⟨foldl_min_le_mem c0.x (List.mem_map_of_mem Coordinate.x hmem),
          foldl_min_le_mem c0.y (List.mem_map_of_mem Coordinate.y hmem),
          mem_le_foldl_max c0.x (List.mem_map_of_mem Coordinate.x hmem),
          mem_le_foldl_max c0.y (List.mem_map_of_mem Coordinate.y hmem)⟩
    · rcases foldl_min_eq_init_or_mem c0.x (rest.map Coordinate.x) with h | h
      · exact ⟨c0, hc ▸ List.mem_cons_self c0 rest, h⟩
      · obtain ⟨c2, hc2, hx⟩ := List.mem_map.mp h
        exact ⟨c2, hc ▸ List.mem_cons_of_mem c0 hc2, hx.symm⟩
    · rcases foldl_min_eq_init_or_mem c0.y (rest.map Coordinate.y) with h | h
      · exact ⟨c0, hc ▸ List.mem_cons_self c0 rest, h⟩
      · obtain ⟨c2, hc2, hy⟩ := List.mem_map.mp h
        exact ⟨c2, hc ▸ List.mem_cons_of_mem c0 hc2, hy.symm⟩
    · rcases foldl_max_eq_init_or_mem c0.x (rest.map Coordinate.x) with h | h
      · exact ⟨c0, hc ▸ List.mem_cons_self c0 rest, h⟩
      · obtain ⟨c2, hc2, hx⟩ := List.mem_map.mp h
        exact ⟨c2, hc ▸ List.mem_cons_of_mem c0 hc2, hx.symm⟩
    · rcases foldl_max_eq_init_or_mem c0.y (rest.map Coordinate.y) with h | h
      · exact ⟨c0, hc ▸ List.mem_cons_self c0 rest, h⟩
      · obtain ⟨c2, hc2, hy⟩ := List.mem_map.mp h
        exact ⟨c2, hc ▸ List.mem_cons_of_mem c0 hc2, hy.symm⟩


theorem sq_dist_nonneg (p q : Coordinate α) : 0 ≤ sq_dist p q := by
  unfold sq_dist
  positivity

theorem sq_dist_eq_zero_iff (p q : Coordinate α) : sq_dist p q = 0 ↔ p = q := by
  unfold sq_dist
  constructor
  · intro h
    have hx : (p.x - q.x) ^ 2 = 0 :=
      le_antisymm (by nlinarith [sq_nonneg (p.y - q.y)]) (sq_nonneg _)
    have hy : (p.y - q.y) ^ 2 = 0 :=
      le_antisymm (by nlinarith [sq_nonneg (p.x - q.x)]) (sq_nonneg _)
    have hx2 : p.x = q.x :=
      sub_eq_zero.mp (pow_eq_zero_iff two_ne_zero |>.mp hx)
    have hy2 : p.y = q.y :=
      sub_eq_zero.mp (pow_eq_zero_iff two_ne_zero |>.mp hy)
    obtain ⟨px, py⟩ := p
    obtain ⟨qx, qy⟩ := q
    simp only [Coordinate.mk.injEq]
    exact ⟨hx2, hy2⟩
  · rintro rfl
    ring

/-- The squared distance from `p` to the segment point at parameter `u`
is a quadratic in `u` with vertex at the projection parameter. -/
theorem sq_dist_seg_point_quad (p a b : Coordinate α) (u : α)
    (hL : (b.x - a.x) ^ 2 + (b.y - a.y) ^ 2 ≠ 0) :
    sq_dist p (seg_point a b u)
      = ((b.x - a.x) ^ 2 + (b.y - a.y) ^ 2)
          * (u - ((p.x - a.x) * (b.x - a.x) + (p.y - a.y) * (b.y - a.y))
               / ((b.x - a.x) ^ 2 + (b.y - a.y) ^ 2)) ^ 2
        + (sq_dist p a
           - ((p.x - a.x) * (b.x - a.x) + (p.y - a.y) * (b.y - a.y)) ^ 2
             / ((b.x - a.x) ^ 2 + (b.y - a.y) ^ 2)) := by
  unfold sq_dist seg_point
  field_simp
  ring

/-- Clamping to [0,1] is the closest point of the interval: for any
`t ∈ [0,1]` the clamped value of `s` is at least as close to `s`. -/
theorem clamp_sq_le (s t : α) (h0 : 0 ≤ t) (h1 : t ≤ 1) :
    (max 0 (min 1 s) - s) ^ 2 ≤ (t - s) ^ 2 := by
  rcases le_total s 0 with hs | hs
  · rw [min_eq_right (le_trans hs zero_le_one), max_eq_left hs]
    nlinarith [mul_nonneg h0 (by linarith : (0 : α) ≤ t - 2 * s)]
  · rcases le_total 1 s with hs1 | hs1
    · rw [min_eq_left hs1, max_eq_right zero_le_one]
      nlinarith [mul_nonneg (by linarith : (0 : α) ≤ 1 - t)
        (by linarith : (0 : α) ≤ 2 * s - 1 - t)]
    · rw [min_eq_right hs1, max_eq_right hs]
      simp [sq_nonneg]

/-- The per-segment value is a lower bound for the squared distance to
every point of the segment. -/
theorem line_segment_sq_distance_le (p a b : Coordinate α) (t : α)
    (h0 : 0 ≤ t) (h1 : t ≤ 1) :
    line_segment_sq_distance p a b ≤ sq_dist p (seg_point a b t) := by
  simp only [line_segment_sq_distance]
  split_ifs with hL
  · have hdx : b.x - a.x = 0 :=
      pow_eq_zero_iff two_ne_zero |>.mp
        (le_antisymm (by nlinarith [sq_nonneg (b.y - a.y)]) (sq_nonneg _))
    have hdy : b.y - a.y = 0 :=
      pow_eq_zero_iff two_ne_zero |>.mp
        (le_antisymm (by nlinarith [sq_nonneg (b.x - a.x)]) (sq_nonneg _))
    have hsp : seg_point a b t = a := by
      simp [seg_point, hdx, hdy]
    rw [hsp]
  · rw [sq_dist_seg_point_quad p a b t hL,
      sq_dist_seg_point_quad p a b _ hL]
    apply add_le_add_right
    apply mul_le_mul_of_nonneg_left
    · exact clamp_sq_le _ t h0 h1
    · positivity

/-- The per-segment value is attained at some point of the segment. -/
theorem line_segment_sq_distance_attained (p a b : Coordinate α) :
    ∃ t, 0 ≤ t ∧ t ≤ 1
      ∧ line_segment_sq_distance p a b = sq_dist p (seg_point a b t) := by
  simp only [line_segment_sq_distance]
  split_ifs with hL
  · refine ⟨0, le_refl 0, zero_le_one, ?_⟩
    have hdx : b.x - a.x = 0 :=
      pow_eq_zero_iff two_ne_zero |>.mp
        (le_antisymm (by nlinarith [sq_nonneg (b.y - a.y)]) (sq_nonneg _))
    have hdy : b.y - a.y = 0 :=
      pow_eq_zero_iff two_ne_zero |>.mp
        (le_antisymm (by nlinarith [sq_nonneg (b.x - a.x)]) (sq_nonneg _))
    have hsp : seg_point a b 0 = a := by
      simp [seg_point, hdx, hdy]
    rw [hsp]
  · exact ⟨_, le_max_left _ _, max_le zero_le_one (min_le_left 1 _), rfl⟩

theorem line_segment_sq_distance_nonneg (p a b : Coordinate α) :
    0 ≤ line_segment_sq_distance p a b := by
  simp only [line_segment_sq_distance]
  split_ifs <;> exact sq_dist_nonneg _ _

theorem line_segment_sq_distance_eq_zero_iff (p a b : Coordinate α) :
    line_segment_sq_distance p a b = 0 ↔ on_segment p a b := by
  constructor
  · intro h
    obtain ⟨t, h0, h1, ht⟩ := line_segment_sq_distance_attained p a b
    rw [h] at ht
    exact ⟨t, h0, h1, (sq_dist_eq_zero_iff _ _).mp ht.symm⟩
  · rintro ⟨t, h0, h1, rfl⟩
    refine le_antisymm ?_ (line_segment_sq_distance_nonneg _ _ _)
    have hle := line_segment_sq_distance_le (seg_point a b t) a b t h0 h1
    rw [(sq_dist_eq_zero_iff (seg_point a b t) (seg_point a b t)).mpr rfl] at hle
    exact hle


/-- C6: for every path with at least one segment (length ≥ 2 — the
length-1 case is left unspecified by the spec) and every query point,
`distance_2` returns the squared Euclidean distance from the point to
the nearest point on the union of the path's segments: the returned
value is a lower bound on the squared distance to every point of every
segment and is attained at some point of some segment; it is exactly
zero when the query point lies on some segment, and strictly positive
otherwise. -/
theorem C6_distance_2 (ls : LineString α) (p : Point α)
    (h : 2 ≤ ls.num_coords) :
    ∃ m, ls.distance_2 p = some m
      ∧ (∀ q, on_path q ls → m ≤ sq_dist p.coord q)
      ∧ (∃ q, on_path q ls ∧ m = sq_dist p.coord q)
      ∧ (on_path p.coord ls → m = 0)
      ∧ (¬ on_path p.coord ls → 0 < m) := by
  have hlen : ls.lines.length = ls.num_coords - 1 := by
    simp only [LineString.lines, LineString.num_coords, List.length_map,
      List.length_zip, List.length_tail]
    omega
  obtain ⟨m0, hm0⟩ : ∃ m0,
      (ls.lines.map fun seg =>
        line_segment_sq_distance p.coord seg.start seg.end_).min? = some m0 := by
    cases hl : ls.lines.map fun seg =>
        line_segment_sq_distance p.coord seg.start seg.end_ with
    | nil =>
      exfalso
      have hlnil := congrArg List.length hl
      simp only [List.length_map, hlen, List.length_nil] at hlnil
      simp only [LineString.num_coords] at h hlnil
      omega
    | cons x xs => exact ⟨xs.foldl min x, rfl⟩
  have hmem : m0 ∈ ls.lines.map fun seg =>
      line_segment_sq_distance p.coord seg.start seg.end_ :=
    List.min?_mem (fun a b => min_choice a b) hm0
  have hlb : ∀ b ∈ ls.lines.map fun seg =>
      line_segment_sq_distance p.coord seg.start seg.end_, m0 ≤ b :=
    (List.le_min?_iff (fun _ _ _ => le_min_iff) hm0).mp (le_refl m0)
  have hge : 0 ≤ m0 := by
    obtain ⟨seg, hsegmem, hval⟩ := List.mem_map.mp hmem
    rw [← hval]
    exact line_segment_sq_distance_nonneg _ _ _
  have hdist : ls.distance_2 p = some m0 := by
    simp only [LineString.distance_2, point_line_string_min_sq_distance, hm0,
      Option.map_some']
    have hcases : (if m0 = 0 then (0 : α) else m0) = m0 := by
      split_ifs with hz
      · rw [hz]
      · rfl
    rw [hcases]
  refine ⟨m0, hdist, ?_, ?_, ?_, ?_⟩
  · rintro q ⟨seg, hsegmem, t, h0, h1, rfl⟩
    calc m0 ≤ line_segment_sq_distance p.coord seg.start seg.end_ :=
        hlb _ (List.mem_map_of_mem _ hsegmem)
    _ ≤ sq_dist p.coord (seg_point seg.start seg.end_ t) :=
        line_segment_sq_distance_le _ _ _ t h0 h1
  · obtain ⟨seg, hsegmem, hval⟩ := List.mem_map.mp hmem
    obtain ⟨t, h0, h1, ht⟩ :=
      line_segment_sq_distance_attained p.coord seg.start seg.end_
    refine ⟨seg_point seg.start seg.end_ t, ⟨seg, hsegmem, t, h0, h1, rfl⟩, ?_⟩
    rw [← hval]
    exact ht
  · rintro ⟨seg, hsegmem, hon⟩
    have h2 := hlb _ (List.mem_map_of_mem
      (fun seg => line_segment_sq_distance p.coord seg.start seg.end_) hsegmem)
    have h3 : line_segment_sq_distance p.coord seg.start seg.end_ = 0 :=
      (line_segment_sq_distance_eq_zero_iff _ _ _).mpr hon
    rw [h3] at h2
    exact le_antisymm h2 hge
  · intro hnot
    rcases lt_or_eq_of_le hge with hpos | hzero
    · exact hpos
    · exfalso
      obtain ⟨seg, hsegmem, hval⟩ := List.mem_map.mp hmem
      have h3 : line_segment_sq_distance p.coord seg.start seg.end_ = 0 := by
        rw [hval, ← hzero]
      exact hnot ⟨seg, hsegmem,
        (line_segment_sq_distance_eq_zero_iff _ _ _).mp h3⟩


end Claims

/-! ### Witnesses: the claim theorems applied at concrete inputs -/

/-- Witness for C1 at the spec's scenario 1. -/
theorem C1_lines_segments_witness :
    wpath3.lines.length = wpath3.num_coords - 1
    ∧ wpath3.lines[0]? = some (Line.mk (Coordinate.mk 0 0) (Coordinate.mk 5 0)) :=
  ⟨(C1_lines_segments wpath3).1,
    (C1_lines_segments wpath3).2.1 0 (Coordinate.mk 0 0) (Coordinate.mk 5 0)
      (by rfl) (by rfl)⟩

/-- Witness for C2: `close` is a no-op on the closed scenario-3 path. -/
theorem C2_close_spec_witness : wclosed.close = some wclosed :=
  (C2_close_spec wclosed).1 (by decide)

/-- Witness for C3 at the spec's scenario 1 path. -/
theorem C3_close_idempotent_witness :
    wpath3.close.bind LineString.close = wpath3.close :=
  C3_close_idempotent wpath3

/-- Witness for C4: the scenario-3 path is reported closed. -/
theorem C4_is_closed_iff_witness : wclosed.is_closed = true :=
  (C4_is_closed_iff wclosed).mpr (Or.inr ⟨by decide, by rfl⟩)

/-- Witness for C5 at the spec's scenario 1. -/
theorem C5_triangles_witness :
    wpath3.triangles.length = wpath3.num_coords - 2
    ∧ wpath3.triangles[0]? = some (Triangle.mk (Coordinate.mk 0 0)
        (Coordinate.mk 5 0) (Coordinate.mk 7 9)) :=
  ⟨(C5_triangles wpath3).1,
    (C5_triangles wpath3).2.1 0 (Coordinate.mk 0 0) (Coordinate.mk 5 0)
      (Coordinate.mk 7 9) (by rfl) (by rfl) (by rfl)⟩

/-- Witness for C6 at the spec's scenario 5: path [(0,0),(10,0)] and
query point (5,5). -/
theorem C6_distance_2_witness :
    2 ≤ wpath2.num_coords
    ∧ ∃ m, wpath2.distance_2 wquery = some m
        ∧ (∀ q, on_path q wpath2 → m ≤ sq_dist wquery.coord q)
        ∧ (∃ q, on_path q wpath2 ∧ m = sq_dist wquery.coord q)
        ∧ (on_path wquery.coord wpath2 → m = 0)
        ∧ (¬ on_path wquery.coord wpath2 → 0 < m) :=
  ⟨by decide, C6_distance_2 wpath2 wquery (by decide)⟩

/-- Witness for C7 with scalar bounds −100/100 at the scenario-1 path. -/
theorem C7_envelope_witness :
    ((-100 : ℚ) ≤ 100)
    ∧ ((wpath3.coords = [] →
        LineString.envelope (-100 : ℚ) 100 wpath3
          = AABB.mk (Point.mk (Coordinate.mk (-100) (-100)))
              (Point.mk (Coordinate.mk 100 100)))
      ∧ (wpath3.coords ≠ [] →
        ∃ lo hi : Coordinate ℚ,
          LineString.envelope (-100 : ℚ) 100 wpath3
            = AABB.mk (Point.mk lo) (Point.mk hi)
          ∧ (∀ c ∈ wpath3.coords,
              lo.x ≤ c.x ∧ lo.y ≤ c.y ∧ c.x ≤ hi.x ∧ c.y ≤ hi.y)
          ∧ (∃ c ∈ wpath3.coords, lo.x = c.x)
          ∧ (∃ c ∈ wpath3.coords, lo.y = c.y)
          ∧ (∃ c ∈ wpath3.coords, hi.x = c.x)
          ∧ (∃ c ∈ wpath3.coords, hi.y = c.y))) :=
  ⟨by decide, C7_envelope (-100) 100 wpath3 (by decide)⟩

/-- Witness for C8 on a one-element coordinate sequence. -/
theorem C8_construction_round_trip_witness :
    (LineString.from_vec id [Coordinate.mk (0 : ℚ) 0]).into_iter_coords
      = [Coordinate.mk (0 : ℚ) 0] :=
  (C8_construction_round_trip id [Coordinate.mk (0 : ℚ) 0]
    [Coordinate.mk (0 : ℚ) 0]).2.2.2.1

/-- Witness for C9 at the spec's scenario 1 path. -/
theorem C9_point_view_witness :
    PointsIter.collect_forward wpath3.points_iter = wpath3.coords.map Point.mk :=
  (C9_point_view wpath3).1

/-- Witness for C10 on a one-coordinate path and the scenario-1 path. -/
theorem C10_close_total_witness :
    (LineString.mk [Coordinate.mk (0 : ℚ) 0]).is_closed = true
    ∧ (LineString.mk [Coordinate.mk (0 : ℚ) 0]).close
        = some (LineString.mk [Coordinate.mk (0 : ℚ) 0])
    ∧ wpath3.close.isSome = true :=
  C10_close_total wpath3 (Coordinate.mk 0 0)
